/-
Verification of the copy-trading relay core.

Shallow embedding of the Python sources:
  MASTER/payload_.py  (translator: SignalEvent -> MasterEvent)
  MASTER/state_.py    (normalize_symbol)
  COPY/state_.py      (CopyOrderIntentFactory._clamp_by_max_margin)
  COPY/pv_fsm_.py     (PosMonitorFSM.unpack / refresh)
  COPY/copy_.py       (CopyDestrib._expand_manual_close)
  COPY/cmd_.py        (CmdDestrib.on_close)
  COPY/exequter_.py   (CopyExequter.cancel_executor_)
  API/MX/client.py    (MexcClient.fetch_positions)

Conventions of the embedding:
  * Python floats are modelled as exact rationals.
  * A Python value that may be absent or None is an Option.
  * Python truthiness of a number is being nonzero, of a string being
    nonempty, of a container being nonempty.
  * Async functions are modelled as pure state transformers; exchange
    responses become explicit parameters.
-/
import Mathlib

namespace CP

/-- Python `Utils.safe_float(value)` with its default 0.0: a missing or
unparseable value collapses to 0. -/
def safe_float (v : Option ℚ) : ℚ := v.getD 0

/-- Python `Utils.safe_int(value, default)` on an integer-valued input. -/
def safe_int (v : Option ℤ) (default : ℤ) : ℤ := v.getD default

/-- Python `a or b` over optional numbers: the first operand wins when it
is truthy (present and nonzero). -/
def pyOr (a b : Option ℚ) : Option ℚ :=
  match a with
  | some x => if x ≠ 0 then some x else b
  | none => b

/-- Python truthiness of an optional string (None and the empty string are
falsy). -/
def truthyStr : Option String → Bool
  | none => false
  | some s => s ≠ ""

/-- Position side, the only two values produced by
`side_from_order_side` / `side_from_position_type`. -/
inductive Side
  | LONG
  | SHORT
deriving DecidableEq, Repr

/-- The side-flip map `{"LONG": "SHORT", "SHORT": "LONG"}` used in
`MasterPayload._route`. -/
def flipSide : Side → Side
  | Side.LONG => Side.SHORT
  | Side.SHORT => Side.LONG

/-- Rendering of a side as the string stored in MasterEvent.pos_side. -/
def sideStr : Side → String
  | Side.LONG => "LONG"
  | Side.SHORT => "SHORT"

/-- Raw WS order dict as read by `MasterPayload._route` and `_emit`:
exactly the keys the translator reads.  For `oco_attached` events the raw
dict is `{"tp": ..., "sl": ...}` built in `_handle_stop_order`. -/
structure RawOrder where
  orderId : Option String := none
  vol : Option ℚ := none
  price : Option ℚ := none
  dealAvgPrice : Option ℚ := none
  avgPrice : Option ℚ := none
  leverage : Option ℤ := none
  openType : Option ℤ := none
  reduceOnly : Bool := false
  side : Option ℤ := none
  tp : Option ℚ := none
  sl : Option ℚ := none
  updateTime : Option ℚ := none
  createTime : Option ℚ := none
  timestamp : Option ℚ := none
  time : Option ℚ := none
  ts : Option ℚ := none
deriving DecidableEq, Repr

/-- The event types `MasterPayload._route` dispatches on; every other
`SignalEventType` (position, plan, deal) falls through the routing and is
collapsed into `otherEvent`. -/
inductive EType
  | ocoAttached
  | marketFilled
  | limitFilled
  | limitPlaced
  | triggerFilled
  | orderCancelled
  | orderInvalid
  | otherEvent
deriving DecidableEq, Repr

/-- `SignalEvent` (MASTER/state_.py): `ts` is the stream-receipt clock in
milliseconds. -/
structure SigEvent where
  symbol : String
  pos_side : Option Side
  event_type : EType
  ts : ℤ
  raw : RawOrder
deriving DecidableEq, Repr

/-- The master-side per (symbol, side) position-vars slot, restricted to
the two fields `_route` reads or writes (`_attached_tp`, `_attached_sl`);
the remaining template fields are never touched by the translator. -/
structure MPV where
  attached_tp : Option ℚ := none
  attached_sl : Option ℚ := none
deriving DecidableEq, Repr

/-- Translator state: the anti-double-fire set `_limit_intents` plus the
master `pos_vars_root` map keyed by (symbol, pos_side). -/
structure MPState where
  limit_intents : Finset String := ∅
  pos_vars : List ((String × Side) × MPV) := []
deriving DecidableEq

/-- MasterEvent payload dict.  Field `none` stands for a key that is
absent or holds Python None; no claim distinguishes the two. -/
structure MPayload where
  order_id : Option String := none
  qty : Option ℚ := none
  price : Option ℚ := none
  leverage : Option ℤ := none
  open_type : Option ℤ := none
  reduce_only : Option Bool := none
  tp_price : Option ℚ := none
  sl_price : Option ℚ := none
  exec_ts : Option ℤ := none
deriving DecidableEq, Repr

inductive HLEvent
  | buy
  | sell
  | canceled
deriving DecidableEq, Repr

inductive Method
  | market
  | limit
  | trigger
deriving DecidableEq, Repr

inductive SigType
  | copy
  | manual
deriving DecidableEq, Repr

/-- `MasterEvent` (MASTER/payload_.py).  `cid` models the dynamic `_cid`
attribute attached by the manual-close expander; it is absent (`none`) on
every translator-emitted event. -/
structure MEvent where
  event : HLEvent
  method : Method
  symbol : String
  pos_side : Option String
  closed : Bool
  payload : MPayload
  sig_type : SigType
  ts : ℤ
  cid : Option ℤ := none
deriving DecidableEq, Repr

/-- The predicate of `_extract_exchange_ts`: a present, positive number. -/
def is_pos_num : Option ℚ → Bool
  | some x => decide (0 < x)
  | none => false

/-- `_extract_exchange_ts`: first key among updateTime, createTime,
timestamp, time, ts whose value is a positive number; values below 1e10
are seconds and multiplied by 1000; finally truncated by `int(...)`
(floor, the value being positive). -/
def extract_exchange_ts (raw : RawOrder) : Option ℤ :=
  let keys := [raw.updateTime, raw.createTime, raw.timestamp, raw.time, raw.ts]
  match keys.find? is_pos_num with
  | some (some v) => some (Rat.floor (if v < 10000000000 then v * 1000 else v))
  | _ => none

/-- `MasterPayload._base_payload`. -/
def base_payload (raw : RawOrder) : MPayload :=
  { order_id := raw.orderId
    qty := some (safe_float raw.vol)
    price := some (safe_float (pyOr raw.price (pyOr raw.dealAvgPrice raw.avgPrice)))
    leverage := raw.leverage
    open_type := raw.openType
    reduce_only := some raw.reduceOnly }

/-- Association-list lookup standing in for a Python dict read. -/
def pvLookup (m : List ((String × Side) × MPV)) (k : String × Side) : Option MPV :=
  (m.find? (fun e => e.1 = k)).map (·.2)

/-- Association-list overwrite standing in for a Python dict write. -/
def pvWrite (m : List ((String × Side) × MPV)) (k : String × Side) (v : MPV) :
    List ((String × Side) × MPV) :=
  if (m.find? (fun e => e.1 = k)).isSome then
    m.map (fun e => if e.1 = k then (k, v) else e)
  else
    m ++ [(k, v)]

/-- `MasterPayload._inject_oco_from_intent`: read any pending TP/SL for
(symbol, side) into the payload and consume both slots. -/
def inject_oco (st : MPState) (payload : MPayload) (symbol : String) (side : Side) :
    MPState × MPayload :=
  match pvLookup st.pos_vars (symbol, side) with
  | none => (st, payload)
  | some pv =>
    let payload := match pv.attached_tp with
      | some tp => { payload with tp_price := some tp }
      | none => payload
    let payload := match pv.attached_sl with
      | some sl => { payload with sl_price := some sl }
      | none => payload
    let cleared : MPV := { attached_tp := none, attached_sl := none }
    ({ st with pos_vars := pvWrite st.pos_vars (symbol, side) cleared }, payload)

/-- `MasterPayload._emit` (the sig_type:"copy" path used by `_route`):
stamps `payload.exec_ts` and sets the event ts to
`min(exec_ts, tech_ts)` when both are truthy, else to the wall clock. -/
def emit (nowMs : ℤ) (event : HLEvent) (method : Method) (symbol : String)
    (side : Side) (closed : Bool) (payload : MPayload) (ev : SigEvent) : MEvent :=
  let exec_ts := extract_exchange_ts ev.raw
  let tech_ts := ev.ts
  let ts := match exec_ts with
    | some e => if e ≠ 0 ∧ tech_ts ≠ 0 then min e tech_ts else nowMs
    | none => nowMs
  { event := event
    method := method
    symbol := symbol
    pos_side := some (sideStr side)
    closed := closed
    payload := { payload with exec_ts := exec_ts }
    sig_type := SigType.copy
    ts := ts }

/-- `PosVarSetup.set_pos_defaults` as used by `_ensure_pv`: create the
(symbol, side) slot with template defaults when missing. -/
def ensure_pv (st : MPState) (symbol : String) (side : Side) : MPState :=
  match pvLookup st.pos_vars (symbol, side) with
  | some _ => st
  | none => { st with pos_vars := pvWrite st.pos_vars (symbol, side) {} }

/-- `MasterPayload._route`: one signal event in, an updated translator
state and the list of emitted MasterEvents out (each branch emits at most
one).  `nowMs` stands for the `now()` calls inside `_emit`. -/
def route (nowMs : ℤ) (st : MPState) (ev : SigEvent) : MPState × List MEvent :=
  if ev.symbol = "" then (st, []) else
  match ev.pos_side with
  | none => (st, [])
  | some pos_side =>
    let raw := ev.raw
    match ev.event_type with
    | EType.ocoAttached =>
      let st := ensure_pv st ev.symbol pos_side
      let pv := (pvLookup st.pos_vars (ev.symbol, pos_side)).getD {}
      let pv := { pv with attached_tp := some (safe_float raw.tp),
                          attached_sl := some (safe_float raw.sl) }
      ({ st with pos_vars := pvWrite st.pos_vars (ev.symbol, pos_side) pv }, [])
    | EType.marketFilled =>
      let reduce_only := raw.reduceOnly
      let is_close := reduce_only
      let emit_side := if is_close then flipSide pos_side else pos_side
      let r := inject_oco st (base_payload raw) ev.symbol emit_side
      (r.1, [emit nowMs (if is_close then HLEvent.sell else HLEvent.buy)
              Method.market ev.symbol emit_side is_close r.2 ev])
    | EType.limitFilled =>
      match raw.orderId with
      | some oid =>
        if oid ∈ st.limit_intents then
          ({ st with limit_intents := st.limit_intents.erase oid }, [])
        else
          let r := inject_oco st (base_payload raw) ev.symbol pos_side
          (r.1, [emit nowMs HLEvent.buy Method.limit ev.symbol pos_side false r.2 ev])
      | none =>
        let r := inject_oco st (base_payload raw) ev.symbol pos_side
        (r.1, [emit nowMs HLEvent.buy Method.limit ev.symbol pos_side false r.2 ev])
    | EType.limitPlaced =>
      let st := if truthyStr raw.orderId then
          { st with limit_intents := insert (raw.orderId.getD "") st.limit_intents }
        else st
      (st, [emit nowMs HLEvent.buy Method.limit ev.symbol pos_side false
              (base_payload raw) ev])
    | EType.triggerFilled =>
      let reduce_only := raw.reduceOnly
      let is_sell := ¬ (raw.side = some 1 ∨ raw.side = some 3)
      let emit_side := if reduce_only then flipSide pos_side else pos_side
      let r := inject_oco st (base_payload raw) ev.symbol emit_side
      (r.1, [emit nowMs (if is_sell then HLEvent.sell else HLEvent.buy)
              Method.trigger ev.symbol emit_side reduce_only r.2 ev])
    | EType.orderCancelled =>
      let st := if truthyStr raw.orderId then
          { st with limit_intents := st.limit_intents.erase (raw.orderId.getD "") }
        else st
      (st, [emit nowMs HLEvent.canceled Method.limit ev.symbol pos_side false
              { order_id := raw.orderId } ev])
    | EType.orderInvalid =>
      let st := if truthyStr raw.orderId then
          { st with limit_intents := st.limit_intents.erase (raw.orderId.getD "") }
        else st
      (st, [emit nowMs HLEvent.canceled Method.limit ev.symbol pos_side false
              { order_id := raw.orderId } ev])
    | EType.otherEvent => (st, [])


/-- Any event emitted by `route` for signal `ev` went through `emit` with
that same `ev`. -/
lemma mem_route_emit (nowMs : ℤ) (st : MPState) (ev : SigEvent) (m : MEvent)
    (hm : m ∈ (route nowMs st ev).2) :
    ∃ e meth sd closed payload, m = emit nowMs e meth ev.symbol sd closed payload ev := by
  obtain ⟨sym, oside, et, ts, raw⟩ := ev
  by_cases hsym : sym = ""
  · subst hsym; simp [route] at hm
  rcases oside with _ | sd
  · simp [route, hsym] at hm
  cases et
  · simp [route, hsym] at hm
  · simp only [route, hsym, if_neg, if_false, List.mem_singleton] at hm
    exact ⟨_, _, _, _, _, hm⟩
  · rcases hoid : raw.orderId with _ | oid
    · simp only [route, hoid] at hm
      simp only [hsym, if_neg, if_false, List.mem_singleton] at hm
      exact ⟨_, _, _, _, _, hm⟩
    · simp only [route, hoid] at hm
      by_cases hmem : oid ∈ st.limit_intents
      · simp [hsym, hmem] at hm
      · simp only [hsym, if_neg, if_false, hmem, List.mem_singleton] at hm
        exact ⟨_, _, _, _, _, hm⟩
  · simp only [route, hsym, if_neg, if_false, List.mem_singleton] at hm
    exact ⟨_, _, _, _, _, hm⟩
  · simp only [route, hsym, if_neg, if_false, List.mem_singleton] at hm
    exact ⟨_, _, _, _, _, hm⟩
  · simp only [route, hsym, if_neg, if_false, List.mem_singleton] at hm
    exact ⟨_, _, _, _, _, hm⟩
  · simp only [route, hsym, if_neg, if_false, List.mem_singleton] at hm
    exact ⟨_, _, _, _, _, hm⟩
  · simp [route, hsym] at hm

/-- C1: limit self-echo suppression.  A `limit_placed` with orderId L adds
L to `_limit_intents` and emits one `{event:buy, method:limit,
closed:false}` MasterEvent; a `limit_filled` with L in the intent set
emits nothing and removes L; a `limit_filled` whose orderId is not in the
intent set emits one `{event:buy, method:limit, closed:false}`. -/
theorem C1_limit_echo_suppression
    (nowMs : ℤ) (st : MPState) (ev : SigEvent) (L : String)
    (hoid : ev.raw.orderId = some L) (hL : L ≠ "")
    (hsym : ev.symbol ≠ "") (hside : ev.pos_side.isSome) :
    (ev.event_type = EType.limitPlaced →
       L ∈ (route nowMs st ev).1.limit_intents ∧
       ∃ m, (route nowMs st ev).2 = [m] ∧
         m.event = HLEvent.buy ∧ m.method = Method.limit ∧ m.closed = false)
    ∧ (ev.event_type = EType.limitFilled → L ∈ st.limit_intents →
       (route nowMs st ev).2 = [] ∧ L ∉ (route nowMs st ev).1.limit_intents)
    ∧ (ev.event_type = EType.limitFilled → L ∉ st.limit_intents →
       ∃ m, (route nowMs st ev).2 = [m] ∧
         m.event = HLEvent.buy ∧ m.method = Method.limit ∧ m.closed = false) := by
  obtain ⟨sym, oside, et, ts, raw⟩ := ev
  simp only at hoid hsym hside
  obtain ⟨sd, rfl⟩ := Option.isSome_iff_exists.mp hside
  refine ⟨?_, ?_, ?_⟩
  · rintro rfl
    simp only [route, hoid, truthyStr]
    simp only [hsym, if_neg, hL, ne_eq, not_false_iff, decide_True, if_true,
      Option.getD_some]
    constructor
    · exact Finset.mem_insert_self L st.limit_intents
    · exact ⟨_, rfl, rfl, rfl, rfl⟩
  · rintro rfl hmem
    simp only [route, hoid]
    simp only [hsym, if_neg, hmem, if_pos]
    simp [hmem]
  · rintro rfl hmem
    simp only [route, hoid]
    simp only [hsym, if_neg, hmem, if_neg]
    simp only [inject_oco]
    rcases h : pvLookup st.pos_vars (sym, sd) with _ | pv
    · exact ⟨_, rfl, rfl, rfl, rfl⟩
    · exact ⟨_, rfl, rfl, rfl, rfl⟩

/-- A concrete `limit_placed` signal used by the C1 witness. -/
def evC1placed : SigEvent :=
  { symbol := "BTC_USDT", pos_side := some Side.LONG,
    event_type := EType.limitPlaced, ts := 7,
    raw := { orderId := some "L1" } }

/-- A concrete `limit_filled` signal with the same orderId. -/
def evC1filled : SigEvent :=
  { symbol := "BTC_USDT", pos_side := some Side.LONG,
    event_type := EType.limitFilled, ts := 9,
    raw := { orderId := some "L1" } }

theorem C1_limit_echo_suppression_witness :
    "L1" ∈ (route 0 {} evC1placed).1.limit_intents ∧
    (route 0 (route 0 {} evC1placed).1 evC1filled).2 = [] := by
  constructor
  · exact ((C1_limit_echo_suppression 0 {} evC1placed "L1" rfl (by decide)
      (by decide) (by decide)).1 rfl).1
  · exact ((C1_limit_echo_suppression 0 (route 0 {} evC1placed).1 evC1filled "L1"
      rfl (by decide) (by decide) (by decide)).2.1 rfl (by decide)).1

/-- C4: trigger-fill translation.  Every `trigger_filled` event emits one
MasterEvent with method trigger, event sell iff raw side is not 1 or 3,
closed equal to reduceOnly, and pos_side flipped exactly when reduceOnly
is true. -/
theorem C4_trigger_fill_translation
    (nowMs : ℤ) (st : MPState) (ev : SigEvent) (sd : Side)
    (het : ev.event_type = EType.triggerFilled) (hsym : ev.symbol ≠ "")
    (hside : ev.pos_side = some sd) :
    ∃ m, (route nowMs st ev).2 = [m] ∧
      m.method = Method.trigger ∧
      (m.event = HLEvent.sell ↔ ¬ (ev.raw.side = some 1 ∨ ev.raw.side = some 3)) ∧
      m.closed = ev.raw.reduceOnly ∧
      m.pos_side = some (sideStr (if ev.raw.reduceOnly then flipSide sd else sd)) := by
  obtain ⟨sym, oside, et, ts, raw⟩ := ev
  simp only at het hsym hside
  subst het
  subst hside
  have hroute : (route nowMs st ⟨sym, some sd, EType.triggerFilled, ts, raw⟩).2 =
      [emit nowMs
        (if ¬ (raw.side = some 1 ∨ raw.side = some 3) then HLEvent.sell else HLEvent.buy)
        Method.trigger sym (if raw.reduceOnly then flipSide sd else sd) raw.reduceOnly
        (inject_oco st (base_payload raw) sym
          (if raw.reduceOnly then flipSide sd else sd)).2
        ⟨sym, some sd, EType.triggerFilled, ts, raw⟩] := by
    simp only [route]
    rw [if_neg hsym]
  refine ⟨_, hroute, rfl, ?_, rfl, rfl⟩
  by_cases hs : raw.side = some 1 ∨ raw.side = some 3 <;> simp [emit, hs]

/-- The literal scenario of the spec: trigger close on a SHORT with
side 1 and reduceOnly true. -/
def evC4 : SigEvent :=
  { symbol := "BTC_USDT", pos_side := some Side.SHORT,
    event_type := EType.triggerFilled, ts := 11,
    raw := { side := some 1, reduceOnly := true } }

theorem C4_trigger_fill_translation_witness :
    ∃ m, (route 0 {} evC4).2 = [m] ∧
      m.method = Method.trigger ∧
      (m.event = HLEvent.sell ↔ ¬ (evC4.raw.side = some 1 ∨ evC4.raw.side = some 3)) ∧
      m.closed = evC4.raw.reduceOnly ∧
      m.pos_side = some (sideStr (if evC4.raw.reduceOnly then flipSide Side.SHORT
        else Side.SHORT)) :=
  C4_trigger_fill_translation 0 {} evC4 Side.SHORT rfl (by decide) rfl


/-- C8 (amended): every emitted MasterEvent stamps payload.exec_ts with
the extracted exchange timestamp (first positive key among updateTime,
createTime, timestamp, time, ts, seconds normalized to ms), and whenever
that exec_ts exists, is nonzero, and the stream-receipt timestamp is
nonzero, the event ts equals min(exec_ts, tech_ts). -/
theorem C8_exec_ts_and_min_ts
    (nowMs : ℤ) (st : MPState) (ev : SigEvent) (m : MEvent)
    (hm : m ∈ (route nowMs st ev).2) :
    m.payload.exec_ts = extract_exchange_ts ev.raw ∧
    ∀ e, extract_exchange_ts ev.raw = some e → e ≠ 0 → ev.ts ≠ 0 →
      m.ts = min e ev.ts := by
  obtain ⟨e', meth, sd, closed, payload, rfl⟩ := mem_route_emit nowMs st ev m hm
  refine ⟨rfl, ?_⟩
  intro e he h0 ht
  simp [emit, he, h0, ht]

theorem C8_exec_ts_and_min_ts_witness :
    ∃ m, m ∈ (route 0 {} evC1placed).2 ∧
      m.payload.exec_ts = extract_exchange_ts evC1placed.raw := by
  refine ⟨(route 0 {} evC1placed).2.head (by decide), ?_, ?_⟩
  · exact List.head_mem _
  · exact (C8_exec_ts_and_min_ts 0 {} evC1placed _
      (List.head_mem _)).1


lemma rat_floor_eq (q : ℚ) : Rat.floor q = ⌊q⌋ := rfl

/-- A market fill whose only timestamp key is a positive sub-millisecond
value: the extracted exec_ts truncates to 0, which is falsy in Python. -/
def evC8 : SigEvent :=
  { symbol := "BTC_USDT", pos_side := some Side.LONG,
    event_type := EType.marketFilled, ts := 7,
    raw := { updateTime := some (1 / 2500) } }

lemma evC8_extract : extract_exchange_ts evC8.raw = some 0 := by
  have hpos : is_pos_num (some ((1:ℚ)/2500)) = true := by
    simp only [is_pos_num, decide_eq_true_eq]
    norm_num
  have hlt : ((1:ℚ)/2500) < 10000000000 := by norm_num
  have hfl : Rat.floor ((1:ℚ)/2500 * 1000) = 0 := by
    rw [rat_floor_eq, Int.floor_eq_iff]
    norm_num
  simp only [extract_exchange_ts, evC8]
  rw [List.find?_cons_of_pos _ hpos]
  simp only [if_pos hlt, hfl]

/-- C8 counterexample: for the concrete event `evC8` the extracted
exec_ts is some 0 (it exists) and the receipt clock is 7 (set), yet the
single emitted MasterEvent carries ts 999 (the wall clock) instead of
min exec_ts tech_ts = 0: the claim as stated fails when exec_ts is 0. -/
theorem C8_counterexample :
    extract_exchange_ts evC8.raw = some 0 ∧ evC8.ts = 7 ∧
    (route 999 {} evC8).2.map MEvent.ts = [999] ∧ (999 : ℤ) ≠ min 0 evC8.ts := by
  have h2 : (route 999 {} evC8).2 =
      [emit 999 HLEvent.buy Method.market "BTC_USDT" Side.LONG false
        (inject_oco {} (base_payload evC8.raw) "BTC_USDT" Side.LONG).2 evC8] := rfl
  refine ⟨evC8_extract, rfl, ?_, by decide⟩
  rw [h2]
  simp [emit, evC8_extract]


structure SymbolSpec where
  contract_size : Option ℚ := none
  vol_unit : Option ℚ := none
  contract_precision : Option ℤ := none
deriving DecidableEq, Repr

def round_half_even (x : ℚ) : ℤ :=
  let f := Rat.floor x
  if x - f < 1/2 then f
  else if 1/2 < x - f then f + 1
  else if f % 2 = 0 then f else f + 1

def py_round (x : ℚ) (n : ℤ) : ℚ :=
  (round_half_even (x * 10 ^ n) : ℚ) / 10 ^ n

def snap_contracts (m price : ℚ) (leverage : ℤ) (cs vu : ℚ) (prec : ℤ) : ℚ :=
  let base_qty := m * (leverage : ℚ) / price
  let c := base_qty / cs
  let c := (Rat.floor (c / vu) : ℚ) * vu
  let c := py_round c prec
  if c ≤ 0 then 0 else c

def pre_margin (contracts cs price : ℚ) (leverage : ℤ) (coef rnd : ℚ) : ℚ :=
  let m := contracts * cs * price / (leverage : ℚ)
  let m := if coef ≠ 0 ∧ coef ≠ 1 then m * |coef| else m
  if rnd ≠ 0 ∧ rnd ≠ 100 then m * |rnd / 100| else m

def clamp_by_max_margin (contracts max_margin price : ℚ) (leverage : ℤ)
    (coef rnd : ℚ) (spec : SymbolSpec) : ℚ :=
  if price ≤ 0 ∨ leverage ≤ 0 then contracts
  else match spec.contract_size, spec.vol_unit, spec.contract_precision with
    | some cs, some vu, some prec =>
      if cs = 0 ∨ vu = 0 then contracts
      else
        let margin := pre_margin contracts cs price leverage coef rnd
        if margin ≠ 0 ∧ max_margin ≠ 0 ∧ margin ≥ max_margin then
          snap_contracts |max_margin| price leverage cs vu prec
        else if margin = 0 then 0
        else snap_contracts margin price leverage cs vu prec
    | _, _, _ => contracts


lemma rat_floor_mono {x y : ℚ} (h : x ≤ y) : Rat.floor x ≤ Rat.floor y := by
  rw [rat_floor_eq, rat_floor_eq]
  exact Int.floor_mono h

lemma rhe_bounds (x : ℚ) :
    Rat.floor x ≤ round_half_even x ∧ round_half_even x ≤ Rat.floor x + 1 := by
  simp only [round_half_even]
  split_ifs <;> omega

lemma rhe_mono {x y : ℚ} (h : x ≤ y) : round_half_even x ≤ round_half_even y := by
  rcases lt_or_le (Rat.floor x) (Rat.floor y) with hf | hf
  · calc round_half_even x ≤ Rat.floor x + 1 := (rhe_bounds x).2
      _ ≤ Rat.floor y := by omega
      _ ≤ round_half_even y := (rhe_bounds y).1
  · have hf2 : Rat.floor x = Rat.floor y := le_antisymm (rat_floor_mono h) hf
    simp only [round_half_even]
    rw [hf2]
    split_ifs <;> first | omega | linarith

lemma py_round_mono {x y : ℚ} (n : ℤ) (h : x ≤ y) : py_round x n ≤ py_round y n := by
  unfold py_round
  have hpow : (0:ℚ) < 10 ^ n := zpow_pos (by norm_num) n
  apply (div_le_div_iff_of_pos_right hpow).mpr
  exact_mod_cast rhe_mono (mul_le_mul_of_nonneg_right h hpow.le)

lemma grid_snap_mono {x y vu : ℚ} (hvu : vu ≠ 0) (h : x ≤ y) :
    (Rat.floor (x / vu) : ℚ) * vu ≤ (Rat.floor (y / vu) : ℚ) * vu := by
  rcases hvu.lt_or_lt with hneg | hpos
  · have hd : y / vu ≤ x / vu := (div_le_div_right_of_neg hneg).mpr h
    have hfl : Rat.floor (y / vu) ≤ Rat.floor (x / vu) := rat_floor_mono hd
    exact mul_le_mul_of_nonpos_right (by exact_mod_cast hfl) hneg.le
  · have hd : x / vu ≤ y / vu := (div_le_div_iff_of_pos_right hpos).mpr h
    have hfl : Rat.floor (x / vu) ≤ Rat.floor (y / vu) := rat_floor_mono hd
    exact mul_le_mul_of_nonneg_right (by exact_mod_cast hfl) hpos.le

lemma rhe_zero : round_half_even 0 = 0 := by
  simp only [round_half_even]
  norm_num [rat_floor_eq]

lemma py_round_nonpos {x : ℚ} (n : ℤ) (h : x ≤ 0) : py_round x n ≤ 0 := by
  have hmono := py_round_mono n h
  have h0 : py_round 0 n = 0 := by
    unfold py_round
    rw [zero_mul, rhe_zero]
    norm_num
  rw [h0] at hmono
  exact hmono

lemma snap_zero_of_neg_cs {m price : ℚ} {leverage : ℤ} {cs vu : ℚ} {prec : ℤ}
    (hp : 0 < price) (hl : 0 < leverage) (hcs : cs < 0) (hvu : vu ≠ 0) (hm : 0 < m) :
    snap_contracts m price leverage cs vu prec = 0 := by
  simp only [snap_contracts]
  have hlq : (0:ℚ) < (leverage : ℚ) := by exact_mod_cast hl
  have hq : m * (leverage : ℚ) / price / cs < 0 :=
    div_neg_of_pos_of_neg (div_pos (mul_pos hm hlq) hp) hcs
  set q := m * (leverage : ℚ) / price / cs with hqdef
  have hs : (Rat.floor (q / vu) : ℚ) * vu ≤ 0 := by
    rcases hvu.lt_or_lt with hneg | hpos
    · have ht : 0 < q / vu := div_pos_of_neg_of_neg hq hneg
      have hfl : 0 ≤ Rat.floor (q / vu) := by
        rw [rat_floor_eq]
        exact Int.floor_nonneg.mpr ht.le
      exact mul_nonpos_of_nonneg_of_nonpos (by exact_mod_cast hfl) hneg.le
    · have hfl : (Rat.floor (q / vu) : ℚ) ≤ q / vu := by
        rw [rat_floor_eq]
        exact Int.floor_le _
      have hle : (Rat.floor (q / vu) : ℚ) * vu ≤ (q / vu) * vu :=
        mul_le_mul_of_nonneg_right hfl hpos.le
      rw [div_mul_cancel₀ _ hpos.ne.symm] at hle
      linarith
  have hr : py_round ((Rat.floor (q / vu) : ℚ) * vu) prec ≤ 0 := py_round_nonpos prec hs
  rw [if_pos hr]

lemma snap_mono {a b price : ℚ} {leverage : ℤ} {cs vu : ℚ} {prec : ℤ}
    (hp : 0 < price) (hl : 0 < leverage) (hcs : cs ≠ 0) (hvu : vu ≠ 0)
    (ha : 0 < a) (hab : a ≤ b) :
    snap_contracts a price leverage cs vu prec ≤
    snap_contracts b price leverage cs vu prec := by
  rcases hcs.lt_or_lt with hneg | hpos
  · rw [snap_zero_of_neg_cs hp hl hneg hvu ha,
      snap_zero_of_neg_cs hp hl hneg hvu (ha.trans_le hab)]
  · have hlq : (0:ℚ) < (leverage : ℚ) := by exact_mod_cast hl
    have hq : a * (leverage : ℚ) / price / cs ≤ b * (leverage : ℚ) / price / cs := by
      apply (div_le_div_iff_of_pos_right hpos).mpr
      apply (div_le_div_iff_of_pos_right hp).mpr
      exact mul_le_mul_of_nonneg_right hab hlq.le
    have hs := grid_snap_mono hvu hq
    have hr := py_round_mono prec hs
    simp only [snap_contracts]
    split_ifs with h1 h2 h2
    · exact le_rfl
    · linarith [not_le.mp h2]
    · linarith [not_le.mp h1]
    · exact hr

/-- C5: the literal clamp scenario: contracts 20, coef 0.5, no jitter,
max margin 50, price 100, leverage 10, contract size 1, volume unit 0.1,
precision 1 yields exactly 5 contracts. -/
theorem C5_clamp_literal :
    clamp_by_max_margin 20 50 100 10 (1/2) 100 ⟨some 1, some (1/10), some 1⟩ = 5 := by
  norm_num [clamp_by_max_margin, pre_margin, snap_contracts, py_round,
    round_half_even, rat_floor_eq, abs_of_pos]

/-- C6 (amended): for fixed other inputs the clamp result is
non-decreasing as max_position_size increases over positive values; the
claim as stated fails at 0 (0 disables the clamp entirely) and for
negative values (clamped through the absolute value). -/
theorem C6_clamp_monotone_amended
    (contracts price coef rnd : ℚ) (leverage : ℤ) (spec : SymbolSpec)
    (mm1 mm2 : ℚ) (h1 : 0 < mm1) (h12 : mm1 ≤ mm2) :
    clamp_by_max_margin contracts mm1 price leverage coef rnd spec ≤
    clamp_by_max_margin contracts mm2 price leverage coef rnd spec := by
  simp only [clamp_by_max_margin]
  by_cases hg : price ≤ 0 ∨ leverage ≤ 0
  · rw [if_pos hg, if_pos hg]
  rw [if_neg hg, if_neg hg]
  push_neg at hg
  obtain ⟨hp, hl⟩ := hg
  obtain ⟨ocs, ovu, oprec⟩ := spec
  rcases ocs with _ | cs
  · exact le_rfl
  rcases ovu with _ | vu
  · exact le_rfl
  rcases oprec with _ | prec
  · exact le_rfl
  dsimp only
  by_cases hz : cs = 0 ∨ vu = 0
  · rw [if_pos hz, if_pos hz]
  rw [if_neg hz, if_neg hz]
  push_neg at hz
  obtain ⟨hcs, hvu⟩ := hz
  set margin := pre_margin contracts cs price leverage coef rnd with hmdef
  have hm1 : mm1 ≠ 0 := ne_of_gt h1
  have h2pos : 0 < mm2 := h1.trans_le h12
  have hm2 : mm2 ≠ 0 := ne_of_gt h2pos
  by_cases hmz : margin = 0
  · have hn1 : ¬(margin ≠ 0 ∧ mm1 ≠ 0 ∧ margin ≥ mm1) := fun h => h.1 hmz
    have hn2 : ¬(margin ≠ 0 ∧ mm2 ≠ 0 ∧ margin ≥ mm2) := fun h => h.1 hmz
    rw [if_neg hn1, if_neg hn2, if_pos hmz]
  · by_cases hge2 : margin ≥ mm2
    · have hge1 : margin ≥ mm1 := le_trans h12 hge2
      rw [if_pos ⟨hmz, hm1, hge1⟩, if_pos ⟨hmz, hm2, hge2⟩, abs_of_pos h1,
        abs_of_pos h2pos]
      exact snap_mono hp hl hcs hvu h1 h12
    · have hn2 : ¬(margin ≠ 0 ∧ mm2 ≠ 0 ∧ margin ≥ mm2) := fun h => hge2 h.2.2
      by_cases hge1 : margin ≥ mm1
      · rw [if_pos ⟨hmz, hm1, hge1⟩, if_neg hn2, if_neg hmz, abs_of_pos h1]
        exact snap_mono hp hl hcs hvu h1 hge1
      · have hn1 : ¬(margin ≠ 0 ∧ mm1 ≠ 0 ∧ margin ≥ mm1) := fun h => hge1 h.2.2
        rw [if_neg hn1, if_neg hn2, if_neg hmz]

def specC6 : SymbolSpec := ⟨some 1, some (1/10), some 1⟩

/-- C6 counterexample: raising max_position_size from 0 to 50 (with the
other inputs fixed) drops the returned contracts from 20 to 5, because 0
is falsy and disables the cap: the claim as stated is false. -/
theorem C6_counterexample :
    clamp_by_max_margin 20 0 100 10 1 100 specC6 = 20 ∧
    clamp_by_max_margin 20 50 100 10 1 100 specC6 = 5 ∧
    ¬ (clamp_by_max_margin 20 0 100 10 1 100 specC6 ≤
       clamp_by_max_margin 20 50 100 10 1 100 specC6) := by
  refine ⟨?_, ?_, ?_⟩ <;>
    norm_num [clamp_by_max_margin, pre_margin, snap_contracts, py_round,
      round_half_even, rat_floor_eq, specC6, abs_of_pos]

theorem C6_clamp_monotone_witness :
    clamp_by_max_margin 20 30 100 10 1 100 specC6 ≤
    clamp_by_max_margin 20 60 100 10 1 100 specC6 :=
  C6_clamp_monotone_amended 20 100 1 100 10 specC6 30 60 (by decide) (by decide)


/-- Generic association-list read, standing in for a Python dict read. -/
def dget {α β : Type} [DecidableEq α] (m : List (α × β)) (k : α) : Option β :=
  (m.find? (fun e => e.1 = k)).map (fun e => e.2)

/-- Generic association-list overwrite, standing in for a Python dict
write (last write wins, insertion order preserved). -/
def dset {α β : Type} [DecidableEq α] (m : List (α × β)) (k : α) (v : β) :
    List (α × β) :=
  if (m.find? (fun e => e.1 = k)).isSome then
    m.map (fun e => if e.1 = k then (k, v) else e)
  else m ++ [(k, v)]

/-- Follower position-vars slot (`PosVarTemplate.base_template` keys plus
the runtime keys `_entry_ts` and `_state`); a key that is absent and a
key holding None are both `none`. -/
structure PVd where
  in_position : Bool := false
  qty : ℚ := 0
  entry_price : Option ℚ := none
  avg_price : Option ℚ := none
  leverage : Option ℤ := none
  margin_mode : Option ℤ := none
  entry_ts : Option ℤ := none
  state : Option String := none
deriving DecidableEq, Repr

/-- `PosVarTemplate.base_template` (b_context.py). -/
def base_template : PVd :=
  { in_position := false, qty := 0, entry_price := none, avg_price := none,
    leverage := none, margin_mode := none }

/-- The CLOSED_PENDING reset of `PosMonitorFSM.refresh`:
`pv.update(base_template())` overwrites only the template keys, then
`_entry_ts` is restored and `_state` becomes CLOSED_PENDING. -/
def reset_pv (pv : PVd) : PVd :=
  { in_position := false, qty := 0, entry_price := none, avg_price := none,
    leverage := none, margin_mode := none,
    entry_ts := pv.entry_ts, state := some "CLOSED_PENDING" }

/-- A raw MEXC position row, restricted to the keys `unpack` reads. -/
structure RawPos where
  state : Option ℤ := none
  symbol : Option String := none
  positionType : Option ℤ := none
  holdVol : Option ℚ := none
  openAvgPrice : Option ℚ := none
  holdAvgPrice : Option ℚ := none
  leverage : Option ℤ := none
  openType : Option ℤ := none
deriving DecidableEq, Repr

/-- The normalized dict returned by `PosMonitorFSM.unpack`. -/
structure PosInfo where
  symbol : String
  pos_side : String
  qty : ℚ
  entry_price : ℚ
  avg_price : ℚ
  leverage : ℤ
  margin_mode : ℤ
deriving DecidableEq, Repr

/-- `PosMonitorFSM.unpack`: None unless state is 1 (holding), the symbol
is truthy, the absolute holdVol is positive, and positionType is 1 or 2. -/
def unpack (p : RawPos) : Option PosInfo :=
  if p.state ≠ some 1 then none
  else if ¬ truthyStr p.symbol ∨ |safe_float p.holdVol| ≤ 0 then none
  else
    let mk : String → Option PosInfo := fun side => some
      ⟨p.symbol.getD "", side, |safe_float p.holdVol|,
       safe_float p.openAvgPrice, safe_float p.holdAvgPrice,
       safe_int p.leverage 1, safe_int p.openType 1⟩
    match p.positionType with
    | some 1 => mk "LONG"
    | some 2 => mk "SHORT"
    | _ => none

/-- The `active` dict built by `refresh` from the unpacked rows. -/
def build_active (ps : List RawPos) : List ((String × String) × PosInfo) :=
  ps.foldl (fun acc raw =>
    match unpack raw with
    | none => acc
    | some info => dset acc (info.symbol, info.pos_side) info) []

/-- One iteration of the APPLY SNAPSHOT loop of `refresh` on a single PV:
new entry, continued position, reset to CLOSED_PENDING, or unchanged. -/
def apply_snapshot (active : List ((String × String) × PosInfo)) (now_ts : ℤ)
    (sym side : String) (pv : PVd) : PVd :=
  let was := pv.in_position
  match dget active (sym, side) with
  | some info =>
    if 0 < info.qty ∧ was = false then
      { pv with
        in_position := true
        qty := info.qty
        entry_price := some info.entry_price
        avg_price := some info.avg_price
        leverage := some info.leverage
        margin_mode := some info.margin_mode
        entry_ts := some now_ts }
    else if 0 < info.qty ∧ was = true then
      { pv with
        in_position := true
        qty := info.qty
        avg_price := some info.avg_price
        leverage := some info.leverage
        margin_mode := some info.margin_mode }
    else if was then reset_pv pv else pv
  | none => if was then reset_pv pv else pv

/-- A follower position_vars map: symbol to side to PV. -/
abbrev PVMap : Type := List (String × List (String × PVd))

/-- `PosMonitorFSM.refresh`: None positions leave the cache untouched;
otherwise every PV of the map goes through the snapshot step against the
`active` dict. -/
def refresh (positions : Option (List RawPos)) (now_ts : ℤ) (pvm : PVMap) :
    PVMap :=
  match positions with
  | none => pvm
  | some ps =>
    let active := build_active ps
    pvm.map (fun se =>
      (se.1, se.2.map (fun e => (e.1, apply_snapshot active now_ts se.1 e.1 e.2))))

/-- The REST response object of `get_open_positions`, reduced to the two
attributes `fetch_positions` reads. -/
structure ApiResp where
  success : Bool
  data : List RawPos
deriving DecidableEq, Repr

/-- `MexcClient.fetch_positions`: the data rows when the response is
truthy, successful and nonempty, else the empty list — never None. -/
def fetch_positions (response : Option ApiResp) : List RawPos :=
  match response with
  | some r => if r.success = true ∧ r.data ≠ [] then r.data else []
  | none => []

/-- The per-PV invariant of the spec: out of position means zero qty and
in position means positive qty. -/
def pv_inv (pv : PVd) : Prop :=
  (pv.in_position = false → pv.qty = 0) ∧ (pv.in_position = true → 0 < pv.qty)

instance (pv : PVd) : Decidable (pv_inv pv) := by
  unfold pv_inv
  infer_instance

lemma pv_inv_reset (pv : PVd) : pv_inv (reset_pv pv) := by
  constructor <;> simp [reset_pv]

lemma apply_snapshot_inv (active : List ((String × String) × PosInfo))
    (now_ts : ℤ) (sym side : String) (pv : PVd) (h : pv_inv pv) :
    pv_inv (apply_snapshot active now_ts sym side pv) := by
  unfold apply_snapshot
  rcases dget active (sym, side) with _ | info
  · dsimp only
    split_ifs with hw
    · exact pv_inv_reset pv
    · exact h
  · dsimp only
    split_ifs with h1 h2 h3
    · exact ⟨by simp, fun _ => h1.1⟩
    · exact ⟨by simp, fun _ => h2.1⟩
    · exact pv_inv_reset pv
    · exact h


/-- C9: starting from the base template, refresh preserves the PV
invariant: out of position implies qty 0 and in position implies
positive qty, for every (symbol, side) entry of the map. -/
theorem C9_refresh_preserves_invariant
    (positions : Option (List RawPos)) (now_ts : ℤ) (pvm : PVMap)
    (hinv : ∀ se ∈ pvm, ∀ e ∈ se.2, pv_inv e.2) :
    pv_inv base_template ∧
    ∀ se ∈ refresh positions now_ts pvm, ∀ e ∈ se.2, pv_inv e.2 := by
  refine ⟨⟨fun _ => rfl, fun h => by simp [base_template] at h⟩, ?_⟩
  rcases positions with _ | ps
  · exact hinv
  · intro se hse e he
    simp only [refresh] at hse
    rcases List.mem_map.mp hse with ⟨se0, hse0, rfl⟩
    rcases List.mem_map.mp he with ⟨e0, he0, rfl⟩
    exact apply_snapshot_inv _ _ _ _ _ (hinv se0 hse0 e0 he0)

/-- A live LONG position used as the C9 witness snapshot. -/
def rawC9 : RawPos :=
  { state := some 1, symbol := some "BTC_USDT", positionType := some 1,
    holdVol := some 2, openAvgPrice := some 100, holdAvgPrice := some 100,
    leverage := some 10, openType := some 1 }

def pvmC9 : PVMap := [("BTC_USDT", [("LONG", base_template)])]

theorem C9_refresh_preserves_invariant_witness :
    pv_inv base_template ∧
    ∀ se ∈ refresh (some [rawC9]) 77 pvmC9, ∀ e ∈ se.2, pv_inv e.2 :=
  C9_refresh_preserves_invariant (some [rawC9]) 77 pvmC9 (by decide)

/-- An in-position follower PV, the input on which the fail-open claim
breaks. -/
def pvC2 : PVd :=
  { in_position := true, qty := 2, entry_price := some 100,
    avg_price := some 100, leverage := some 10, margin_mode := some 1,
    entry_ts := some 1700000000000 }

def pvmC2 : PVMap := [("BTC_USDT", [("LONG", pvC2)])]

/-- C2: a failed REST fetch is normalized to the empty list by
`fetch_positions` (never None), and `refresh` treats the empty list as an
authoritative snapshot: the in-position PV is reset to the base template
and marked CLOSED_PENDING, although `refresh` would have left the cache
untouched had it received None (the dead fail-open branch). -/
theorem C2_failed_fetch_resets_pv :
    fetch_positions none = [] ∧
    refresh none 5 pvmC2 = pvmC2 ∧
    refresh (some (fetch_positions none)) 5 pvmC2 =
      [("BTC_USDT", [("LONG", reset_pv pvC2)])] ∧
    (reset_pv pvC2).in_position = false ∧
    (reset_pv pvC2).qty = 0 ∧
    (reset_pv pvC2).state = some "CLOSED_PENDING" ∧
    refresh (some (fetch_positions none)) 5 pvmC2 ≠ pvmC2 := by decide


/-- An `orders_vars[symbol][pos_side].{limit|trigger}` record. -/
structure OrderRec where
  copy_order_id : Option String := none
  price : Option String := none
  trigger_price : Option String := none
  qty : Option ℚ := none
  status : Option String := none
deriving DecidableEq, Repr

/-- The per (symbol, pos_side) orders root: master order id to record,
one dict for limit orders and one for trigger orders (the `_lock` entry
is concurrency plumbing and not part of the data). -/
structure OrdersSideRoot where
  limit : List (String × OrderRec) := []
  trigger : List (String × OrderRec) := []
deriving DecidableEq, Repr

/-- An outbound exchange cancel call issued by `cancel_executor_`. -/
inductive ApiCall
  | cancelLimit (ids : List String)
  | cancelTrigger (ids : List String) (symbol : String)
deriving DecidableEq, Repr

/-- The UI log lines appended by `cancel_executor_`, one constructor per
f-string shape. -/
inductive CancelLog
  | skipNoMasterOid (symbol : String) (pos_side : Option String)
  | limitMiss (symbol : String) (pos_side : Option String) (master_oid : String)
  | triggerMiss (symbol : String) (pos_side : Option String) (master_oid : String)
  | limitFailed (symbol : String) (pos_side : Option String) (copy_oid : String)
  | limitDone (symbol : String) (pos_side : Option String) (copy_oid : String)
  | triggerFailed (symbol : String) (pos_side : Option String) (copy_oid : String)
  | triggerDone (symbol : String) (pos_side : Option String) (copy_oid : String)
deriving DecidableEq, Repr

/-- `CopyExequter.cancel_executor_`: the exchange response is modelled by
`respSuccess` (false covers a falsy response and success false alike);
returns the updated side root, the cancel calls issued, and the log
lines appended.  `dict.pop` is pop-then-check: a found record is removed
before its copy id is inspected. -/
def cancel_executor (mev : MEvent) (respSuccess : Bool) (root : OrdersSideRoot) :
    OrdersSideRoot × List ApiCall × List CancelLog :=
  match mev.payload.order_id with
  | none => (root, [], [CancelLog.skipNoMasterOid mev.symbol mev.pos_side])
  | some master_oid =>
    if master_oid = "" then
      (root, [], [CancelLog.skipNoMasterOid mev.symbol mev.pos_side])
    else
      match mev.method with
      | Method.limit =>
        match dget root.limit master_oid with
        | none => (root, [], [CancelLog.limitMiss mev.symbol mev.pos_side master_oid])
        | some rec =>
          let root' : OrdersSideRoot :=
            { root with limit := root.limit.filter (fun e => !decide (e.1 = master_oid)) }
          match rec.copy_order_id with
          | none => (root', [], [])
          | some co =>
            if co = "" then (root', [], [])
            else
              (root', [ApiCall.cancelLimit [co]],
               [if respSuccess then CancelLog.limitDone mev.symbol mev.pos_side co
                else CancelLog.limitFailed mev.symbol mev.pos_side co])
      | Method.trigger =>
        match dget root.trigger master_oid with
        | none => (root, [], [CancelLog.triggerMiss mev.symbol mev.pos_side master_oid])
        | some rec =>
          let root' : OrdersSideRoot :=
            { root with trigger := root.trigger.filter (fun e => !decide (e.1 = master_oid)) }
          match rec.copy_order_id with
          | none => (root', [], [])
          | some co =>
            if co = "" then (root', [], [])
            else
              (root', [ApiCall.cancelTrigger [co] mev.symbol],
               [if respSuccess then CancelLog.triggerDone mev.symbol mev.pos_side co
                else CancelLog.triggerFailed mev.symbol mev.pos_side co])
      | Method.market => (root, [], [])

lemma dget_filter_self {α β : Type} [DecidableEq α] (m : List (α × β)) (k : α) :
    dget (m.filter (fun e => !decide (e.1 = k))) k = none := by
  induction m with
  | nil => rfl
  | cons a l ih =>
    by_cases hk : a.1 = k
    · rw [List.filter_cons, if_neg (by simp [hk])]
      exact ih
    · rw [List.filter_cons, if_pos (by simp [hk])]
      set_option linter.unnecessarySimpa false in
      simpa [dget, List.find?, hk] using ih

/-- C7: cancel idempotence.  With a recorded entry for the master order
id (with a truthy copy id), the first processing issues exactly one
exchange cancel and removes the entry; reprocessing the same event finds
no entry, logs only the CANCEL MISS line, issues no call, and leaves the
orders state unchanged. -/
theorem C7_cancel_idempotent
    (mev : MEvent) (root : OrdersSideRoot) (oid co : String)
    (rec : OrderRec) (r1 r2 : Bool)
    (hoid : mev.payload.order_id = some oid) (hoidne : oid ≠ "") (hco : co ≠ "")
    (hmeth : mev.method = Method.limit ∨ mev.method = Method.trigger)
    (hrec : dget (if mev.method = Method.limit then root.limit else root.trigger)
        oid = some rec)
    (hcid : rec.copy_order_id = some co) :
    (cancel_executor mev r1 root).2.1.length = 1 ∧
    (cancel_executor mev r2 (cancel_executor mev r1 root).1).2.1 = [] ∧
    (cancel_executor mev r2 (cancel_executor mev r1 root).1).1 =
      (cancel_executor mev r1 root).1 ∧
    (cancel_executor mev r2 (cancel_executor mev r1 root).1).2.2 =
      [if mev.method = Method.limit then CancelLog.limitMiss mev.symbol mev.pos_side oid
       else CancelLog.triggerMiss mev.symbol mev.pos_side oid] := by
  rcases hmeth with hm | hm
  · rw [if_pos hm] at hrec
    have h2 : dget (root.limit.filter (fun e => !decide (e.1 = oid))) oid = none :=
      dget_filter_self root.limit oid
    simp [cancel_executor, hoid, hm, hoidne, hrec, hcid, hco, h2]
  · have hm' : mev.method ≠ Method.limit := by rw [hm]; intro h; cases h
    rw [if_neg hm'] at hrec
    have h2 : dget (root.trigger.filter (fun e => !decide (e.1 = oid))) oid = none :=
      dget_filter_self root.trigger oid
    simp [cancel_executor, hoid, hm, hm', hoidne, hrec, hcid, hco, h2]

/-- A concrete canceled MasterEvent and orders root for the C7 witness. -/
def mevC7 : MEvent :=
  { event := HLEvent.canceled, method := Method.limit, symbol := "BTC_USDT",
    pos_side := some "LONG", closed := false,
    payload := { order_id := some "M1" }, sig_type := SigType.copy, ts := 3 }

def rootC7 : OrdersSideRoot :=
  { limit := [("M1", { copy_order_id := some "C1", status := some "OPEN" })] }

theorem C7_cancel_idempotent_witness :
    (cancel_executor mevC7 true rootC7).2.1.length = 1 ∧
    (cancel_executor mevC7 true (cancel_executor mevC7 true rootC7).1).2.1 = [] ∧
    (cancel_executor mevC7 true (cancel_executor mevC7 true rootC7).1).1 =
      (cancel_executor mevC7 true rootC7).1 ∧
    (cancel_executor mevC7 true (cancel_executor mevC7 true rootC7).1).2.2 =
      [if mevC7.method = Method.limit
       then CancelLog.limitMiss mevC7.symbol mevC7.pos_side "M1"
       else CancelLog.triggerMiss mevC7.symbol mevC7.pos_side "M1"] :=
  C7_cancel_idempotent mevC7 rootC7 "M1" "C1"
    { copy_order_id := some "C1", status := some "OPEN" } true true
    rfl (by decide) (by decide) (Or.inl rfl) (by decide) rfl


/-- Follower runtime, restricted to the fields `ensure_copy_state` and
the manual-close expander read. -/
structure Runtime where
  init_state : Option String := none
  network_ready : Bool := false
  position_vars : PVMap := []
deriving DecidableEq, Repr

/-- `CopyState.ensure_copy_state`: only a READY, network-ready runtime is
returned; nothing is created or repaired. -/
def ensure_copy_state (rts : List (ℤ × Runtime)) (cid : ℤ) : Option Runtime :=
  match dget rts cid with
  | none => none
  | some rt =>
    if rt.init_state ≠ some "READY" then none
    else if rt.network_ready = false then none
    else some rt

/-- The id filter of `CmdDestrib.on_close`:
`ids = [cid for cid in ids if cid != 0]`. -/
def on_close_ids (ids : List ℤ) : List ℤ :=
  ids.filter (fun cid => !decide (cid = 0))

/-- The synthetic manual MasterEvent built by `on_close` (payload None is
the all-absent payload). -/
def manual_close_event (now_ts : ℤ) : MEvent :=
  { event := HLEvent.sell, method := Method.market,
    symbol := "ALL OPENED SYMBOLS", pos_side := none, closed := true,
    payload := {}, sig_type := SigType.manual, ts := now_ts }

/-- `CmdDestrib.on_close`: nothing happens under stop; after filtering
out cid 0 an empty list aborts; otherwise `mc.cmd_ids` is set to the
filtered list and the synthetic manual event is enqueued (the
master-payload missing early return only drops the enqueue and is not
modelled separately). -/
def on_close (stop_flag : Bool) (ids : List ℤ) (now_ts : ℤ) :
    Option (List ℤ × MEvent) :=
  if stop_flag then none
  else
    let ids2 := on_close_ids ids
    if ids2 = [] then none
    else some (ids2, manual_close_event now_ts)

/-- One expanded atomic close event of `_expand_manual_close`, with the
hard `_cid` binding. -/
def mk_close_sub (cid : ℤ) (sym side : String) (pv : PVd) (ts : ℤ) : MEvent :=
  { event := HLEvent.sell, method := Method.market, symbol := sym,
    pos_side := some side, closed := true,
    payload := { qty := some pv.qty, reduce_only := some true,
                 leverage := pv.leverage, open_type := pv.margin_mode },
    sig_type := SigType.manual, ts := ts, cid := some cid }

/-- The body of the outer loop of `_expand_manual_close` for one cid. -/
def ev_for_cid (rts : List (ℤ × Runtime)) (mev : MEvent) (cid : ℤ) :
    List MEvent :=
  match ensure_copy_state rts cid with
  | none => []
  | some rt =>
    rt.position_vars.flatMap (fun se =>
      se.2.filterMap (fun e =>
        if e.2.in_position = true ∧ 0 < e.2.qty then
          some (mk_close_sub cid se.1 e.1 e.2 mev.ts)
        else none))

/-- `CopyDestrib._expand_manual_close`: iterate `mc.cmd_ids`, skip
non-READY runtimes, and emit one close event per PV with in_position and
positive qty. -/
def expand_manual_close (cmd_ids : List ℤ) (rts : List (ℤ × Runtime))
    (mev : MEvent) : List MEvent :=
  cmd_ids.flatMap (ev_for_cid rts mev)

/-- The PV the expander reads for (cid, symbol, side), through
`ensure_copy_state` and the nested dict lookups. -/
def pv_at (rts : List (ℤ × Runtime)) (cid : ℤ) (sym side : String) :
    Option PVd :=
  match ensure_copy_state rts cid with
  | none => none
  | some rt =>
    match dget rt.position_vars sym with
    | none => none
    | some sides => dget sides side

def key_match (cid : ℤ) (sym side : String) (e : MEvent) : Bool :=
  decide (e.cid = some cid) && decide (e.symbol = sym) &&
    decide (e.pos_side = some side)

/-- How many expanded events target one (cid, symbol, side) triple. -/
def countKey (evs : List MEvent) (cid : ℤ) (sym side : String) : ℕ :=
  (evs.filter (key_match cid sym side)).length

/-- The qualification predicate of the claim: the PV exists, is in
position, and has positive qty. -/
def close_qualifies (rts : List (ℤ × Runtime)) (cid : ℤ) (sym side : String) :
    Prop :=
  match pv_at rts cid sym side with
  | some pv => pv.in_position = true ∧ 0 < pv.qty
  | none => False

lemma countKey_append (a b : List MEvent) (cid : ℤ) (sym side : String) :
    countKey (a ++ b) cid sym side =
      countKey a cid sym side + countKey b cid sym side := by
  simp [countKey, List.filter_append]

lemma countKey_eq_zero {evs : List MEvent} {cid : ℤ} {sym side : String}
    (h : ∀ e ∈ evs, ¬ key_match cid sym side e = true) :
    countKey evs cid sym side = 0 := by
  simp [countKey, List.filter_eq_nil_iff.mpr h]

lemma dget_eq_of_mem {α β : Type} [DecidableEq α] {m : List (α × β)} {k : α}
    {v : β} (h : (k, v) ∈ m) (hn : (m.map Prod.fst).Nodup) :
    dget m k = some v := by
  induction m with
  | nil => cases h
  | cons a l ih =>
    rcases List.mem_cons.mp h with h | h
    · subst h
      simp [dget, List.find?]
    · have hn2 := (List.nodup_cons.mp hn).2
      have hk : a.1 ≠ k := by
        intro hak
        exact (List.nodup_cons.mp hn).1
          (hak ▸ List.mem_map.mpr ⟨(k, v), h, rfl⟩)
      have := ih h hn2
      simp [dget, List.find?, hk] at this ⊢
      exact this


lemma countKey_cons (x : MEvent) (rest : List MEvent) (cid : ℤ) (sym side : String) :
    countKey (x :: rest) cid sym side =
      (if key_match cid sym side x then 1 else 0) + countKey rest cid sym side := by
  by_cases hp : key_match cid sym side x = true <;>
    simp [countKey, List.filter_cons, hp, Nat.add_comm]

lemma key_match_mk (cid c : ℤ) (sym s d side : String) (pv : PVd) (ts : ℤ) :
    key_match cid sym side (mk_close_sub c s d pv ts) =
      (decide (c = cid) && decide (s = sym) && decide (d = side)) := by
  simp [key_match, mk_close_sub]

lemma count_sides_zero (cid : ℤ) (sym : String) (ts : ℤ) (side : String)
    (l : List (String × PVd)) (hs : side ∉ l.map Prod.fst) :
    countKey (l.filterMap (fun e =>
      if e.2.in_position = true ∧ 0 < e.2.qty then
        some (mk_close_sub cid sym e.1 e.2 ts) else none)) cid sym side = 0 := by
  apply countKey_eq_zero
  intro e he
  rcases List.mem_filterMap.mp he with ⟨a, ha, hfa⟩
  by_cases hc : a.2.in_position = true ∧ 0 < a.2.qty
  · rw [if_pos hc, Option.some.injEq] at hfa
    subst hfa
    have hne : a.1 ≠ side := fun h => hs (h ▸ List.mem_map.mpr ⟨a, ha, rfl⟩)
    simp [key_match_mk, hne]
  · rw [if_neg hc] at hfa
    cases hfa

lemma count_sides_symbol_zero (cid : ℤ) (s0 : String) (ts : ℤ)
    (sym side : String) (l : List (String × PVd)) (hne : s0 ≠ sym) :
    countKey (l.filterMap (fun e =>
      if e.2.in_position = true ∧ 0 < e.2.qty then
        some (mk_close_sub cid s0 e.1 e.2 ts) else none)) cid sym side = 0 := by
  apply countKey_eq_zero
  intro e he
  rcases List.mem_filterMap.mp he with ⟨a, ha, hfa⟩
  by_cases hc : a.2.in_position = true ∧ 0 < a.2.qty
  · rw [if_pos hc, Option.some.injEq] at hfa
    subst hfa
    simp [key_match_mk, hne]
  · rw [if_neg hc] at hfa
    cases hfa

lemma count_sides (cid : ℤ) (sym : String) (ts : ℤ) (side : String)
    (l : List (String × PVd)) (hnd : (l.map Prod.fst).Nodup) :
    countKey (l.filterMap (fun e =>
      if e.2.in_position = true ∧ 0 < e.2.qty then
        some (mk_close_sub cid sym e.1 e.2 ts) else none)) cid sym side =
      (match dget l side with
       | some pv => if pv.in_position = true ∧ 0 < pv.qty then 1 else 0
       | none => 0) := by
  induction l with
  | nil => rfl
  | cons a l ih =>
    have hn1 : a.1 ∉ l.map Prod.fst := (List.nodup_cons.mp (by simpa using hnd)).1
    have hn2 : (l.map Prod.fst).Nodup := (List.nodup_cons.mp (by simpa using hnd)).2
    by_cases hk : a.1 = side
    · have hd : dget (a :: l) side = some a.2 := by
        simp [dget, List.find?, hk]
      rw [hd]
      have hz : countKey (l.filterMap (fun e =>
          if e.2.in_position = true ∧ 0 < e.2.qty then
            some (mk_close_sub cid sym e.1 e.2 ts) else none)) cid sym side = 0 :=
        count_sides_zero cid sym ts side l (hk ▸ hn1)
      by_cases hc : a.2.in_position = true ∧ 0 < a.2.qty
      · rw [List.filterMap_cons, if_pos hc, countKey_cons, hz, key_match_mk]
        simp [hk, hc]
      · rw [List.filterMap_cons, if_neg hc, hz]
        simp [hc]
    · have hd : dget (a :: l) side = dget l side := by
        simp [dget, List.find?, hk]
      rw [hd]
      by_cases hc : a.2.in_position = true ∧ 0 < a.2.qty
      · rw [List.filterMap_cons, if_pos hc, countKey_cons, key_match_mk]
        simp only [hk, decide_False, Bool.and_false, Bool.false_and,
          Bool.and_eq_true, if_false]
        rw [ih hn2]
        simp
      · rw [List.filterMap_cons, if_neg hc]
        exact ih hn2


lemma count_pvm_zero (cid : ℤ) (ts : ℤ) (sym side : String) (pvm : PVMap)
    (hs : sym ∉ pvm.map Prod.fst) :
    countKey (pvm.flatMap (fun se => se.2.filterMap (fun e =>
      if e.2.in_position = true ∧ 0 < e.2.qty then
        some (mk_close_sub cid se.1 e.1 e.2 ts) else none))) cid sym side = 0 := by
  apply countKey_eq_zero
  intro e he
  rcases List.mem_flatMap.mp he with ⟨se, hse, hee⟩
  rcases List.mem_filterMap.mp hee with ⟨a, ha, hfa⟩
  by_cases hc : a.2.in_position = true ∧ 0 < a.2.qty
  · rw [if_pos hc, Option.some.injEq] at hfa
    subst hfa
    have hne : se.1 ≠ sym := fun h => hs (h ▸ List.mem_map.mpr ⟨se, hse, rfl⟩)
    simp [key_match_mk, hne]
  · rw [if_neg hc] at hfa
    cases hfa

lemma count_pvm (cid : ℤ) (ts : ℤ) (pvm : PVMap)
    (hn1 : (pvm.map Prod.fst).Nodup)
    (hn2 : ∀ se ∈ pvm, (se.2.map Prod.fst).Nodup) (sym side : String) :
    countKey (pvm.flatMap (fun se => se.2.filterMap (fun e =>
      if e.2.in_position = true ∧ 0 < e.2.qty then
        some (mk_close_sub cid se.1 e.1 e.2 ts) else none))) cid sym side =
      (match dget pvm sym with
       | some sides =>
         (match dget sides side with
          | some pv => if pv.in_position = true ∧ 0 < pv.qty then 1 else 0
          | none => 0)
       | none => 0) := by
  induction pvm with
  | nil => rfl
  | cons se l ih =>
    have hm1 : se.1 ∉ l.map Prod.fst := (List.nodup_cons.mp (by simpa using hn1)).1
    have hm2 : (l.map Prod.fst).Nodup := (List.nodup_cons.mp (by simpa using hn1)).2
    rw [List.flatMap_cons, countKey_append]
    by_cases hk : se.1 = sym
    · have hd : dget (se :: l) sym = some se.2 := by
        simp [dget, List.find?, hk]
      rw [hd]
      have hz : countKey (l.flatMap (fun se => se.2.filterMap (fun e =>
          if e.2.in_position = true ∧ 0 < e.2.qty then
            some (mk_close_sub cid se.1 e.1 e.2 ts) else none))) cid sym side = 0 :=
        count_pvm_zero cid ts sym side l (hk ▸ hm1)
      rw [hz, hk, count_sides cid sym ts side se.2 (hn2 se (List.mem_cons_self _ _))]
      simp
    · have hd : dget (se :: l) sym = dget l sym := by
        simp [dget, List.find?, hk]
      rw [hd]
      have hz : countKey (se.2.filterMap (fun e =>
          if e.2.in_position = true ∧ 0 < e.2.qty then
            some (mk_close_sub cid se.1 e.1 e.2 ts) else none)) cid sym side = 0 :=
        count_sides_symbol_zero cid se.1 ts sym side se.2 hk
      rw [hz, ih hm2 (fun x hx => hn2 x (List.mem_cons_of_mem se hx))]
      simp

lemma dget_mem {α β : Type} [DecidableEq α] {m : List (α × β)} {k : α} {v : β}
    (h : dget m k = some v) : (k, v) ∈ m := by
  unfold dget at h
  rcases hf : m.find? (fun e => decide (e.1 = k)) with _ | e
  · rw [hf] at h
    cases h
  · rw [hf] at h
    have h1 : e.1 = k := by simpa using List.find?_some hf
    have h2 : e ∈ m := List.mem_of_find?_eq_some hf
    have h3 : e.2 = v := by simpa using h
    have : e = (k, v) := Prod.ext h1 h3
    exact this ▸ h2

lemma ensure_mem {rts : List (ℤ × Runtime)} {cid : ℤ} {rt : Runtime}
    (h : ensure_copy_state rts cid = some rt) : (cid, rt) ∈ rts := by
  unfold ensure_copy_state at h
  rcases hd : dget rts cid with _ | rt0
  · rw [hd] at h
    cases h
  · rw [hd] at h
    dsimp only at h
    by_cases h1 : rt0.init_state ≠ some "READY"
    · rw [if_pos h1] at h
      cases h
    · rw [if_neg h1] at h
      by_cases h2 : rt0.network_ready = false
      · rw [if_pos h2] at h
        cases h
      · rw [if_neg h2] at h
        rw [Option.some.injEq] at h
        subst h
        exact dget_mem hd

lemma ev_for_cid_cid (rts : List (ℤ × Runtime)) (mev : MEvent) (cid : ℤ) :
    ∀ e ∈ ev_for_cid rts mev cid, e.cid = some cid := by
  intro e he
  unfold ev_for_cid at he
  rcases h : ensure_copy_state rts cid with _ | rt
  · rw [h] at he
    cases he
  · rw [h] at he
    rcases List.mem_flatMap.mp he with ⟨se, hse, hee⟩
    rcases List.mem_filterMap.mp hee with ⟨a, ha, hfa⟩
    by_cases hc : a.2.in_position = true ∧ 0 < a.2.qty
    · rw [if_pos hc, Option.some.injEq] at hfa
      subst hfa
      rfl
    · rw [if_neg hc] at hfa
      cases hfa

lemma count_ev_for_cid (rts : List (ℤ × Runtime)) (mev : MEvent) (cid : ℤ)
    (hns : ∀ p ∈ rts, ((p.2.position_vars).map Prod.fst).Nodup)
    (hnd : ∀ p ∈ rts, ∀ se ∈ p.2.position_vars, (se.2.map Prod.fst).Nodup)
    (sym side : String) :
    countKey (ev_for_cid rts mev cid) cid sym side =
      (match pv_at rts cid sym side with
       | some pv => if pv.in_position = true ∧ 0 < pv.qty then 1 else 0
       | none => 0) := by
  unfold ev_for_cid pv_at
  rcases h : ensure_copy_state rts cid with _ | rt
  · rfl
  · have hmem := ensure_mem h
    have hc := count_pvm cid mev.ts rt.position_vars (hns (cid, rt) hmem)
      (hnd (cid, rt) hmem) sym side
    dsimp only
    rcases h1 : dget rt.position_vars sym with _ | sides
    · rw [h1] at hc
      simpa using hc
    · rw [h1] at hc
      dsimp only
      rcases h2 : dget sides side with _ | pv
      · dsimp only at hc
        rw [h2] at hc
        simpa using hc
      · dsimp only at hc
        rw [h2] at hc
        simpa using hc


lemma count_expand (cmd_ids : List ℤ) (rts : List (ℤ × Runtime)) (mev : MEvent)
    (hnc : cmd_ids.Nodup)
    (hns : ∀ p ∈ rts, ((p.2.position_vars).map Prod.fst).Nodup)
    (hnd : ∀ p ∈ rts, ∀ se ∈ p.2.position_vars, (se.2.map Prod.fst).Nodup)
    (cid : ℤ) (sym side : String) :
    countKey (expand_manual_close cmd_ids rts mev) cid sym side =
      if cid ∈ cmd_ids then
        (match pv_at rts cid sym side with
         | some pv => if pv.in_position = true ∧ 0 < pv.qty then 1 else 0
         | none => 0)
      else 0 := by
  induction cmd_ids with
  | nil => simp [expand_manual_close, countKey]
  | cons c l ih =>
    have hc1 : c ∉ l := (List.nodup_cons.mp hnc).1
    have hc2 : l.Nodup := (List.nodup_cons.mp hnc).2
    rw [expand_manual_close, List.flatMap_cons, countKey_append]
    by_cases hcc : cid = c
    · subst hcc
      have hz : countKey (l.flatMap (ev_for_cid rts mev)) cid sym side = 0 := by
        apply countKey_eq_zero
        intro e he
        rcases List.mem_flatMap.mp he with ⟨c2, hc2m, he2⟩
        have hec := ev_for_cid_cid rts mev c2 e he2
        have hne : c2 ≠ cid := fun hx => hc1 (hx ▸ hc2m)
        simp [key_match, hec, hne]
      rw [hz, count_ev_for_cid rts mev cid hns hnd sym side,
        if_pos (List.mem_cons_self cid l)]
      simp
    · have hz : countKey (ev_for_cid rts mev c) cid sym side = 0 := by
        apply countKey_eq_zero
        intro e he
        have hec := ev_for_cid_cid rts mev c e he
        have hne : c ≠ cid := fun hx => hcc hx.symm
        simp [key_match, hec, hne]
      rw [hz]
      rw [show l.flatMap (ev_for_cid rts mev) = expand_manual_close l rts mev from rfl,
        ih hc2]
      simp [List.mem_cons, hcc]

/-- C3: manual-close expansion.  The on_close filter removes cid 0 before
the synthetic event is built; every expanded event is a manual, closed
"sell market" event bound to a follower, with the payload taken from
that follower PV; and each (cid, symbol, side) with a READY runtime,
in_position PV and positive qty yields exactly one event, every other
triple none. -/
theorem C3_manual_close_expansion
    (ids cmd_ids : List ℤ) (rts : List (ℤ × Runtime)) (mev : MEvent)
    (hnc : cmd_ids.Nodup)
    (hns : ∀ p ∈ rts, ((p.2.position_vars).map Prod.fst).Nodup)
    (hnd : ∀ p ∈ rts, ∀ se ∈ p.2.position_vars, (se.2.map Prod.fst).Nodup) :
    0 ∉ on_close_ids ids ∧
    (∀ e ∈ expand_manual_close cmd_ids rts mev,
      e.sig_type = SigType.manual ∧ e.closed = true ∧ e.event = HLEvent.sell ∧
      e.method = Method.market ∧ e.ts = mev.ts ∧
      ∃ cid sym side pv, e.cid = some cid ∧ e.symbol = sym ∧
        e.pos_side = some side ∧ pv_at rts cid sym side = some pv ∧
        pv.in_position = true ∧ 0 < pv.qty ∧
        e.payload = { qty := some pv.qty, reduce_only := some true,
                      leverage := pv.leverage, open_type := pv.margin_mode }) ∧
    (∀ cid sym side,
      (cid ∈ cmd_ids → close_qualifies rts cid sym side →
        countKey (expand_manual_close cmd_ids rts mev) cid sym side = 1) ∧
      (¬ (cid ∈ cmd_ids ∧ close_qualifies rts cid sym side) →
        countKey (expand_manual_close cmd_ids rts mev) cid sym side = 0)) := by
  refine ⟨?_, ?_, ?_⟩
  · simp [on_close_ids, List.mem_filter]
  · intro e he
    rcases List.mem_flatMap.mp he with ⟨c, hcm, he2⟩
    unfold ev_for_cid at he2
    rcases h : ensure_copy_state rts c with _ | rt
    · rw [h] at he2
      cases he2
    · rw [h] at he2
      have hmem := ensure_mem h
      rcases List.mem_flatMap.mp he2 with ⟨se, hse, he3⟩
      rcases List.mem_filterMap.mp he3 with ⟨a, ha, hfa⟩
      by_cases hq : a.2.in_position = true ∧ 0 < a.2.qty
      · rw [if_pos hq, Option.some.injEq] at hfa
        subst hfa
        refine ⟨rfl, rfl, rfl, rfl, rfl, c, se.1, a.1, a.2, rfl, rfl, rfl, ?_,
          hq.1, hq.2, rfl⟩
        unfold pv_at
        rw [h]
        dsimp only
        rw [dget_eq_of_mem (show (se.1, se.2) ∈ rt.position_vars from hse)
          (hns (c, rt) hmem)]
        exact dget_eq_of_mem (show (a.1, a.2) ∈ se.2 from ha)
          (hnd (c, rt) hmem se hse)
      · rw [if_neg hq] at hfa
        cases hfa
  · intro cid sym side
    constructor
    · intro hmemc hqual
      rw [count_expand cmd_ids rts mev hnc hns hnd cid sym side, if_pos hmemc]
      unfold close_qualifies at hqual
      rcases hp : pv_at rts cid sym side with _ | pv
      · rw [hp] at hqual
        cases hqual
      · rw [hp] at hqual
        dsimp only at hqual ⊢
        rw [if_pos hqual]
    · intro hnot
      rw [count_expand cmd_ids rts mev hnc hns hnd cid sym side]
      by_cases hmemc : cid ∈ cmd_ids
      · rw [if_pos hmemc]
        have hnq : ¬ close_qualifies rts cid sym side := fun hq => hnot ⟨hmemc, hq⟩
        unfold close_qualifies at hnq
        rcases hp : pv_at rts cid sym side with _ | pv
        · rfl
        · rw [hp] at hnq
          dsimp only at hnq ⊢
          rw [if_neg hnq]
      · rw [if_neg hmemc]


/-- A READY follower runtime holding one open LONG used by the C3
witness. -/
def pvC3 : PVd :=
  { in_position := true, qty := 2, leverage := some 10, margin_mode := some 1 }

def rtsC3 : List (ℤ × Runtime) :=
  [(3, { init_state := some "READY", network_ready := true,
         position_vars := [("BTC_USDT", [("LONG", pvC3)])] })]

theorem C3_manual_close_expansion_witness :
    0 ∉ on_close_ids [0, 3] ∧
    (∀ e ∈ expand_manual_close [3] rtsC3 (manual_close_event 50),
      e.sig_type = SigType.manual ∧ e.closed = true ∧ e.event = HLEvent.sell ∧
      e.method = Method.market ∧ e.ts = (manual_close_event 50).ts ∧
      ∃ cid sym side pv, e.cid = some cid ∧ e.symbol = sym ∧
        e.pos_side = some side ∧ pv_at rtsC3 cid sym side = some pv ∧
        pv.in_position = true ∧ 0 < pv.qty ∧
        e.payload = { qty := some pv.qty, reduce_only := some true,
                      leverage := pv.leverage, open_type := pv.margin_mode }) ∧
    (∀ cid sym side,
      (cid ∈ [3] → close_qualifies rtsC3 cid sym side →
        countKey (expand_manual_close [3] rtsC3 (manual_close_event 50))
          cid sym side = 1) ∧
      (¬ (cid ∈ [3] ∧ close_qualifies rtsC3 cid sym side) →
        countKey (expand_manual_close [3] rtsC3 (manual_close_event 50))
          cid sym side = 0)) :=
  C3_manual_close_expansion [0, 3] [3] rtsC3 (manual_close_event 50)
    (by decide) (by decide) (by decide)

/-- The final step of `normalize_symbol` with the default quote asset:
Python `s.replace("USDT", "_USDT")`, left-to-right and non-overlapping
(USDT cannot overlap itself). -/
def replaceUSDT : List Char → List Char
  | 'U' :: 'S' :: 'D' :: 'T' :: rest => '_' :: 'U' :: 'S' :: 'D' :: 'T' :: replaceUSDT rest
  | c :: rest => c :: replaceUSDT rest
  | [] => []

/-- Python `str.upper()` modelled on the ASCII range (strings are lists
of characters). -/
def pyUpper (l : List Char) : List Char := l.map Char.toUpper

/-- Python `s.replace(x, "")` for a single character x. -/
def removeChar (c0 : Char) (l : List Char) : List Char :=
  l.filter (fun c => !decide (c = c0))

/-- The replace chain of `normalize_symbol`:
`.replace("-", "").replace("_", "").replace(" ", "")`. -/
def stripSeparators (l : List Char) : List Char :=
  removeChar ' ' (removeChar '_' (removeChar '-' l))

/-- `normalize_symbol` (MASTER/state_.py) with the default quote asset
USDT: empty input short-circuits, otherwise uppercase, strip separators,
and prefix every USDT occurrence with an underscore. -/
def normalize_symbol (l : List Char) : List Char :=
  if l = [] then []
  else replaceUSDT (stripSeparators (pyUpper l))

lemma toNat_ofNat_valid {n : Nat} (h : n < 55296) : (Char.ofNat n).toNat = n := by
  rw [Char.ofNat, dif_pos (Or.inl h)]
  rfl

lemma toUpper_idem (c : Char) : c.toUpper.toUpper = c.toUpper := by
  simp only [Char.toUpper]
  by_cases h : c.toNat ≥ 97 ∧ c.toNat ≤ 122
  · rw [if_pos h]
    have hv : c.toNat - 32 < 55296 := by omega
    rw [toNat_ofNat_valid hv]
    rw [if_neg (by omega)]
  · rw [if_neg h, if_neg h]

lemma mem_replaceUSDT {l : List Char} {c : Char} (h : c ∈ replaceUSDT l) :
    c ∈ l ∨ c ∈ ['_', 'U', 'S', 'D', 'T'] := by
  induction l using replaceUSDT.induct with
  | case1 rest ih =>
    rw [replaceUSDT] at h
    simp only [List.mem_cons] at h ⊢
    rcases h with h | h | h | h | h | h
    · right; simp [h]
    · right; simp [h]
    · right; simp [h]
    · right; simp [h]
    · right; simp [h]
    · rcases ih h with h2 | h2
      · left; right; right; right; right; exact h2
      · right; simpa using h2
  | case2 c0 rest hne ih =>
    rw [replaceUSDT] at h
    · simp only [List.mem_cons] at h ⊢
      rcases h with h | h
      · left; left; exact h
      · rcases ih h with h2 | h2
        · left; right; exact h2
        · right; simpa using h2
    · exact hne
  | case3 => cases h

lemma removeChar_eq_self {c0 : Char} {l : List Char} (h : ∀ c ∈ l, c ≠ c0) :
    removeChar c0 l = l := by
  unfold removeChar
  apply List.filter_eq_self.mpr
  intro a ha
  simpa using h a ha

lemma mem_removeChar {c0 c : Char} {l : List Char} (h : c ∈ removeChar c0 l) :
    c ∈ l ∧ c ≠ c0 := by
  unfold removeChar at h
  have := List.mem_filter.mp h
  simpa using this

lemma removeChar_replaceUSDT {l : List Char} (h : ∀ c ∈ l, c ≠ '_') :
    removeChar '_' (replaceUSDT l) = l := by
  induction l using replaceUSDT.induct with
  | case1 rest ih =>
    rw [replaceUSDT]
    have hr : ∀ c ∈ rest, c ≠ '_' := fun c hc => h c (by simp [hc])
    simp only [removeChar] at ih ⊢
    simp [List.filter_cons, ih hr]
  | case2 c0 rest hne ih =>
    rw [replaceUSDT]
    · have h0 : c0 ≠ '_' := h c0 (by simp)
      have hr : ∀ c ∈ rest, c ≠ '_' := fun c hc => h c (by simp [hc])
      simp only [removeChar] at ih ⊢
      simp [List.filter_cons, h0, ih hr]
    · exact hne
  | case3 => rfl

lemma sub_mem_stripSeparators {c : Char} {l : List Char}
    (h : c ∈ stripSeparators l) : c ∈ l := by
  unfold stripSeparators at h
  exact (mem_removeChar (mem_removeChar (mem_removeChar h).1).1).1

lemma stripSeparators_no_sep {c : Char} {l : List Char}
    (h : c ∈ stripSeparators l) : c ≠ '-' ∧ c ≠ '_' ∧ c ≠ ' ' := by
  unfold stripSeparators at h
  have h1 := mem_removeChar h
  have h2 := mem_removeChar h1.1
  have h3 := mem_removeChar h2.1
  exact ⟨h3.2, h2.2, h1.2⟩

lemma map_eq_self_of_fixed {f : Char → Char} {l : List Char}
    (h : ∀ c ∈ l, f c = c) : l.map f = l := by
  induction l with
  | nil => rfl
  | cons a t ih =>
    simp only [List.map_cons, h a (by simp)]
    rw [ih (fun c hc => h c (by simp [hc]))]

lemma pyUpper_fixed (l : List Char) : ∀ c ∈ pyUpper l, c.toUpper = c := by
  intro c hc
  rcases List.mem_map.mp hc with ⟨a, _, rfl⟩
  exact toUpper_idem a

lemma replace_fixed {l : List Char} (h : ∀ c ∈ l, c.toUpper = c) :
    ∀ c ∈ replaceUSDT l, c.toUpper = c := by
  intro c hc
  rcases mem_replaceUSDT hc with h2 | h2
  · exact h c h2
  · simp only [List.mem_cons, List.not_mem_nil, or_false] at h2
    rcases h2 with rfl | rfl | rfl | rfl | rfl <;> decide

lemma stripSeparators_replaceUSDT {l : List Char}
    (h : ∀ c ∈ l, c ≠ '-' ∧ c ≠ '_' ∧ c ≠ ' ') :
    stripSeparators (replaceUSDT l) = l := by
  unfold stripSeparators
  have hdash : removeChar '-' (replaceUSDT l) = replaceUSDT l := by
    apply removeChar_eq_self
    intro c hc
    rcases mem_replaceUSDT hc with h2 | h2
    · exact (h c h2).1
    · simp only [List.mem_cons, List.not_mem_nil, or_false] at h2
      rcases h2 with rfl | rfl | rfl | rfl | rfl <;> decide
  rw [hdash, removeChar_replaceUSDT (fun c hc => (h c hc).2.1)]
  exact removeChar_eq_self (fun c hc => (h c hc).2.2)

/-- C10: symbol normalization is idempotent for every input string under
the default quote asset USDT: the second pass strips the inserted
underscores and re-inserts them identically. -/
theorem C10_normalize_symbol_idem (l : List Char) :
    normalize_symbol (normalize_symbol l) = normalize_symbol l := by
  by_cases hl : l = []
  · subst hl
    rfl
  · rw [show normalize_symbol l = replaceUSDT (stripSeparators (pyUpper l)) from
      by rw [normalize_symbol, if_neg hl]]
    by_cases hn : replaceUSDT (stripSeparators (pyUpper l)) = []
    · rw [normalize_symbol, if_pos hn]
      exact hn.symm
    · rw [normalize_symbol, if_neg hn]
      have ht_fixed : ∀ c ∈ stripSeparators (pyUpper l), c.toUpper = c :=
        fun c hc => pyUpper_fixed l c (sub_mem_stripSeparators hc)
      have hn_fixed := replace_fixed ht_fixed
      rw [show pyUpper (replaceUSDT (stripSeparators (pyUpper l))) =
          replaceUSDT (stripSeparators (pyUpper l)) from
        map_eq_self_of_fixed hn_fixed]
      rw [stripSeparators_replaceUSDT (fun c hc => stripSeparators_no_sep hc)]

end CP
